import Mathlib

/-!
Shallow embedding of the unmerged-object weight engine of `git-branch-weight`
(files `src/objects.rs`, `src/git.rs`, `src/report.rs`).

Conventions of the embedding:
* `u64` and `usize` values are natural numbers; every arithmetic operation the
  Rust code performs on them is reduced modulo `2 ^ 64` (release-mode wrapping
  semantics of the 64-bit target), written explicitly as `% U64MOD`.
* `FxHashMap` values are association lists with unique keys; the hash map's
  `entry(..).and_modify(..).or_insert_with(..)` API is the assoc-list upsert
  `insertSighting`, and plain `insert` is `insertBlob` (overwrite semantics).
* `FxHashSet<u32>` values are duplicate-free lists of naturals; `insert` is
  `addBranch` (append when absent).  The set's iteration order is unspecified
  in the source; the embedding iterates in insertion order, which is harmless
  because the per-index updates performed in the iteration commute.
* Fallible git invocations (`Result<_>` values observed through `.ok()`) are
  `Option`-valued oracle functions supplied as parameters.
-/

namespace GitBranchWeight

/-- Modulus of 64-bit machine arithmetic (`u64` and 64-bit `usize`). -/
def U64MOD : ℕ := 2 ^ 64

/-- Model of `struct ObjectInfo` (objects.rs lines 7-11): byte size plus the
set of contributing branch indices, the `FxHashSet<u32>` rendered as a
duplicate-free list in insertion order. -/
structure ObjectInfo where
  size : ℕ
  branches : List ℕ
deriving DecidableEq

/-- Model of `struct BranchWeight` (objects.rs lines 13-22). -/
structure BranchWeight where
  branch : String
  unique_size : ℕ
  shared_size : ℕ
  total_size : ℕ
  object_count : ℕ
  unique_count : ℕ
  shared_count : ℕ
deriving DecidableEq

/-- Model of `FxHashSet::insert` on the insertion-ordered list rendering of
the contributor set: append the index when it is not yet present. -/
def addBranch (branch_idx : ℕ) (branches : List ℕ) : List ℕ :=
  if branch_idx ∈ branches then branches else branches ++ [branch_idx]

/-- Model of the body of the inner merge loop (objects.rs lines 127-136):
`object_map.entry(oid).and_modify(|info| info.branches.insert(branch_idx))
.or_insert_with(|| ObjectInfo { size, branches: {branch_idx} })` as an
association-list upsert. -/
def insertSighting (object_map : List (String × ObjectInfo)) (branch_idx : ℕ) (oid : String)
    (size : ℕ) : List (String × ObjectInfo) :=
  match object_map with
  | [] => [(oid, ⟨size, [branch_idx]⟩)]
  | e :: rest =>
    if e.1 = oid then (e.1, ⟨e.2.size, addBranch branch_idx e.2.branches⟩) :: rest
    else e :: insertSighting rest branch_idx oid size

/-- Model of `merge_branch_objects` (objects.rs lines 120-141): fold every
`(branch_idx, branch_objects)` pair, upserting each `(oid, size)` entry. -/
def merge_branch_objects (partial_maps : List (ℕ × List (String × ℕ))) :
    List (String × ObjectInfo) :=
  partial_maps.foldl
    (fun object_map p => p.2.foldl (fun m e => insertSighting m p.1 e.1 e.2) object_map) []

/-- Per-branch accumulator of `calculate_weights` (objects.rs line 148): the
tuple `(u64, u64, usize, usize)` = (unique_size, shared_size, unique_count,
shared_count), with named fields for readability. -/
structure BranchStat where
  unique_size : ℕ
  shared_size : ℕ
  unique_count : ℕ
  shared_count : ℕ
deriving DecidableEq

/-- Model of the branch-stat update in objects.rs lines 155-161: the shared
branch adds the full size to `shared_size` and bumps `shared_count`, the
unique branch adds it to `unique_size` and bumps `unique_count`; additions
are `u64`/`usize` additions, hence reduced `% U64MOD`. -/
def bumpStat (is_shared : Bool) (size : ℕ) (s : BranchStat) : BranchStat :=
  if is_shared then
    { s with shared_size := (s.shared_size + size) % U64MOD,
             shared_count := (s.shared_count + 1) % U64MOD }
  else
    { s with unique_size := (s.unique_size + size) % U64MOD,
             unique_count := (s.unique_count + 1) % U64MOD }

/-- In-place update of the element at index `i` of a list; out-of-range
indices leave the list unchanged (the Rust indexing `branch_stats[idx]`
panics there instead; the pipeline never reaches that case, see the
in-bounds theorem for claim C10). -/
def modifyIdx (l : List α) (i : ℕ) (f : α → α) : List α :=
  match l, i with
  | [], _ => []
  | a :: rest, 0 => f a :: rest
  | a :: rest, i + 1 => a :: modifyIdx rest i f

/-- Model of the outer reduction loop body of `calculate_weights`
(objects.rs lines 150-163): for one `ObjectInfo`, compute `is_shared` once
and update the stat of every contributing branch index. -/
def processObject (stats : List BranchStat) (info : ObjectInfo) : List BranchStat :=
  let is_shared : Bool := decide (1 < info.branches.length)
  info.branches.foldl (fun st b => modifyIdx st b (bumpStat is_shared info.size)) stats

/-- The fully reduced `branch_stats` vector of `calculate_weights`
(objects.rs lines 148-163), starting from `vec![(0, 0, 0, 0); branch_count]`
and folding over the object map's values. -/
def branchStats (branch_count : ℕ) (object_map : List (String × ObjectInfo)) :
    List BranchStat :=
  (object_map.map Prod.snd).foldl processObject (List.replicate branch_count ⟨0, 0, 0, 0⟩)

/-- Construction of one `BranchWeight` record (objects.rs lines 169-179):
`total_size` and `object_count` are `u64`/`usize` sums of the two size and
count fields. -/
def mkWeight (name : String) (s : BranchStat) : BranchWeight :=
  { branch := name
    unique_size := s.unique_size
    shared_size := s.shared_size
    total_size := (s.unique_size + s.shared_size) % U64MOD
    object_count := (s.unique_count + s.shared_count) % U64MOD
    unique_count := s.unique_count
    shared_count := s.shared_count }

/-- The pre-sort output list of `calculate_weights` (objects.rs lines
165-180): enumerate the stats, keep entries with `u > 0 || s > 0`, and build
a `BranchWeight` from each surviving `(index, stat)` pair.  The index is in
bounds by construction, so `getD` with a dummy default is exact. -/
def weightList (branch_names : List String) (object_map : List (String × ObjectInfo)) :
    List BranchWeight :=
  ((branchStats branch_names.length object_map).enum.filter
      (fun p => decide (0 < p.2.unique_size) || decide (0 < p.2.shared_size))).map
    (fun p => mkWeight (branch_names.getD p.1 "") p.2)

/-- The comparison `|a, b| b.total_size.cmp(&a.total_size)` of objects.rs
line 182, as the corresponding total Boolean preorder. -/
def weightLE (a b : BranchWeight) : Bool := decide (b.total_size ≤ a.total_size)

/-- Model of `calculate_weights` (objects.rs lines 143-185).  Rust's
`sort_by` is a stable sort, and a stable sort's output is uniquely
determined by the comparator and the input order, so `List.mergeSort`
renders it exactly. -/
def calculate_weights (branch_names : List String)
    (object_map : List (String × ObjectInfo)) : List BranchWeight :=
  (weightList branch_names object_map).mergeSort weightLE

/-- Model of the `partial_maps` collection of `analyze_branches`
(objects.rs lines 41-57): per enumerated branch, the pipeline result
(`Result` observed through `.ok()`, modelled by the `Option`-valued oracle
`git` keyed by the branch tip) is kept only when it is a non-empty map, and
paired with the branch index. -/
def partialMapsOf (branches : List (String × String))
    (git : String → Option (List (String × ℕ))) : List (ℕ × List (String × ℕ)) :=
  branches.enum.filterMap (fun p =>
    match git p.2.2 with
    | none => none
    | some m => if m.isEmpty then none else some (p.1, m))

/-- Model of `analyze_branches` (objects.rs lines 24-68) after the external
branch enumeration: early-return on an empty branch list, then merge the
partial maps and calculate the weights against the branch-name list. -/
def analyze_branches (branches : List (String × String))
    (git : String → Option (List (String × ℕ))) : List BranchWeight :=
  if branches.length = 0 then []
  else calculate_weights (branches.map Prod.fst) (merge_branch_objects (partialMapsOf branches git))

/-- Model of `struct CommitBlobs` (git.rs lines 7-10). -/
structure CommitBlobs where
  commit : String
  blobs : List (String × ℕ)

/-- Model of `struct CommitWeight` (objects.rs lines 70-74). -/
structure CommitWeight where
  commit : String
  size : ℕ
deriving DecidableEq

/-- Model of `struct BranchDetail` (objects.rs lines 76-81). -/
structure BranchDetail where
  branch : String
  total_size : ℕ
  commits : List CommitWeight
deriving DecidableEq

/-- A `u64` iterator sum (`.sum::<u64>()`), i.e. repeated wrapping addition. -/
def sum64 (l : List ℕ) : ℕ := l.foldl (fun a b => (a + b) % U64MOD) 0

/-- Model of `analyze_branch_details` (objects.rs lines 83-118): for the
first `top_n` branches, query the unmerged commits of
`refs/remotes/<branch>` (fallible, `.ok()?`), map each commit to the sum of
its blob sizes, keep only commits of positive size, and record the sum of
the retained weights as the detail's `total_size`. -/
def analyze_branch_details (branches : List BranchWeight)
    (git : String → Option (List CommitBlobs)) (top_n : ℕ) : List BranchDetail :=
  (branches.take top_n).filterMap (fun bw =>
    match git ("refs/remotes/" ++ bw.branch) with
    | none => none
    | some commits =>
      let commit_weights :=
        (commits.map (fun cb => CommitWeight.mk cb.commit (sum64 (cb.blobs.map Prod.snd)))).filter
          (fun cw => decide (0 < cw.size))
      some { branch := bw.branch
             total_size := sum64 (commit_weights.map CommitWeight.size)
             commits := commit_weights })

/-- Model of `str::split_whitespace` over the character list of a line
(structural tokenizer: maximal runs of non-whitespace characters, no empty
tokens).  `Char.isWhitespace` covers the ASCII whitespace that git output
can contain. -/
def wsTokensAux (cs : List Char) (cur : List Char) : List String :=
  match cs with
  | [] => if cur.isEmpty then [] else [String.mk cur.reverse]
  | c :: rest =>
    if c.isWhitespace then
      if cur.isEmpty then wsTokensAux rest []
      else String.mk cur.reverse :: wsTokensAux rest []
    else wsTokensAux rest (c :: cur)

/-- Whitespace-separated tokens of a line, as in
`line.split_whitespace().collect()` (git.rs line 100). -/
def splitWhitespace (line : String) : List String := wsTokensAux line.toList []

/-- Digit-by-digit accumulation of `u64::from_str`: reject non-digit
characters, fail as soon as the accumulated value leaves the `u64` range. -/
def parseU64Core (cs : List Char) (acc : ℕ) : Option ℕ :=
  match cs with
  | [] => some acc
  | c :: rest =>
    if c.isDigit then
      let acc2 := 10 * acc + (c.toNat - 48)
      if acc2 < U64MOD then parseU64Core rest acc2 else none
    else none

/-- Model of `parts[2].parse::<u64>()` (git.rs line 102): an optional
leading plus sign followed by at least one ASCII digit, value within the
`u64` range. -/
def parseU64 (s : String) : Option ℕ :=
  match s.toList with
  | [] => none
  | c :: rest =>
    if c = '+' then
      match rest with
      | [] => none
      | _ => parseU64Core rest 0
    else parseU64Core (c :: rest) 0

/-- Model of the per-line filter of the metadata-probe reader loop
(git.rs lines 100-105): keep a line exactly when it has at least three
whitespace-separated tokens, the second token is `blob`, and the third
parses as a `u64`; the kept pair is (first token, parsed size). -/
def parse_blob_line (line : String) : Option (String × ℕ) :=
  match splitWhitespace line with
  | p0 :: p1 :: p2 :: _ => if p1 = "blob" then (parseU64 p2).map (fun n => (p0, n)) else none
  | _ => none

/-- Model of `HashMap::insert` (overwrite semantics) on the association-list
rendering of the per-branch blob map. -/
def insertBlob (m : List (String × ℕ)) (oid : String) (size : ℕ) : List (String × ℕ) :=
  match m with
  | [] => [(oid, size)]
  | e :: rest => if e.1 = oid then (oid, size) :: rest else e :: insertBlob rest oid size

/-- Model of the object-collector loop of `get_unmerged_blobs`
(git.rs lines 95-107): fold the metadata-probe output lines, inserting the
parse of each line that survives the blob filter and dropping every other
line silently. -/
def collect_blobs (lines : List String) : List (String × ℕ) :=
  lines.foldl
    (fun m line =>
      match parse_blob_line line with
      | some p => insertBlob m p.1 p.2
      | none => m) []

/-- Numerator of the `f64` value nearest to `0.1`, scaled by `2 ^ 55`:
the literal `0.1` in report.rs line 111 denotes `3602879701896397 / 2 ^ 55`. -/
def FLOAT01_NUM : ℕ := 3602879701896397

/-- Numerator of the `f64` value nearest to `0.01`, scaled by `2 ^ 59`:
the literal `0.01` in report.rs line 113 denotes `5764607523034235 / 2 ^ 59`. -/
def FLOAT001_NUM : ℕ := 5764607523034235

/-- Round-half-to-even division `n / d`, the rounding Rust's float
formatting applies to the exact binary value at the requested number of
decimal digits. -/
def rheDiv (n d : ℕ) : ℕ :=
  let q := n / d
  let r := n % d
  if d < 2 * r then q + 1
  else if 2 * r < d then q
  else if q % 2 = 0 then q else q + 1

/-- Rendering of `format!("\x7b:.1\x7d MB", mb)` for `mb = size / 2 ^ 20`:
one decimal digit, round half to even (exact for `size < 2 ^ 53`, where the
`u64` to `f64` conversion is lossless). -/
def fmtDec1 (size : ℕ) : String :=
  let k := rheDiv (size * 10) (2 ^ 20)
  toString (k / 10) ++ "." ++ toString (k % 10) ++ " MB"

/-- Rendering of `format!("\x7b:.2\x7d MB", mb)` for `mb = size / 2 ^ 20`:
two decimal digits, round half to even (exact for `size < 2 ^ 53`). -/
def fmtDec2 (size : ℕ) : String :=
  let k := rheDiv (size * 100) (2 ^ 20)
  let frac := k % 100
  toString (k / 100) ++ "." ++ (if frac < 10 then "0" ++ toString (frac) else toString (frac)) ++
    " MB"

/-- Model of `format_size_mb` (report.rs lines 109-118).  The comparisons
`mb >= 0.1` and `mb >= 0.01` on `f64` values are rendered exactly over the
naturals: `size / 2 ^ 20 >= c / 2 ^ 55` iff `c <= size * 2 ^ 35`, and the
same for the second threshold with `2 ^ 39`; the branch choice agrees with
the `f64` computation for every `u64` size, since the conversion error for
`size >= 2 ^ 53` cannot cross either sub-1.0 threshold. -/
def format_size_mb (size : ℕ) : String :=
  if FLOAT01_NUM ≤ size * 2 ^ 35 then fmtDec1 size
  else if FLOAT001_NUM ≤ size * 2 ^ 39 then fmtDec2 size
  else "0 MB"

/-- Lookup of an object id in the association-list rendering of the merged
object map (the read face of the hash map used in objects.rs). -/
def lookupOid (object_map : List (String × ObjectInfo)) (oid : String) : Option ObjectInfo :=
  match object_map with
  | [] => none
  | e :: rest => if e.1 = oid then some e.2 else lookupOid rest oid

/-- All sightings of an object id across the partial maps, in traversal
order: each is a (branch index, size) pair. -/
def sightingsOf (partial_maps : List (ℕ × List (String × ℕ))) (oid : String) :
    List (ℕ × ℕ) :=
  (partial_maps.map (fun p =>
    (p.2.filter (fun e => decide (e.1 = oid))).map (fun e => (p.1, e.2)))).flatten

/-- The merge loop of objects.rs lines 125-138, flattened into one fold over
(branch index, oid, size) triples; used to reason about
`merge_branch_objects` sighting by sighting. -/
def foldSightings (ts : List (ℕ × String × ℕ)) (m : List (String × ObjectInfo)) :
    List (String × ObjectInfo) :=
  ts.foldl (fun om t => insertSighting om t.1 t.2.1 t.2.2) m

/-- The (branch index, oid, size) triples of the partial maps, in traversal
order. -/
def triplesOf (partial_maps : List (ℕ × List (String × ℕ))) : List (ℕ × String × ℕ) :=
  (partial_maps.map (fun p => p.2.map (fun e => (p.1, e.1, e.2)))).flatten

/-- Sightings of an object id within a flattened triple list. -/
def sightingsT (ts : List (ℕ × String × ℕ)) (oid : String) : List (ℕ × ℕ) :=
  (ts.filter (fun t => decide (t.2.1 = oid))).map (fun t => (t.1, t.2.2))

/-- Every contributor index recorded anywhere in an object map is below `n`:
exactly the condition under which the indexing `branch_stats[branch_idx]` of
objects.rs line 154 stays in bounds. -/
def BranchesBounded (n : ℕ) (m : List (String × ObjectInfo)) : Prop :=
  ∀ e ∈ m, ∀ b ∈ e.2.branches, b < n

theorem mem_addBranch {b i : ℕ} {l : List ℕ} : b ∈ addBranch i l ↔ b = i ∨ b ∈ l := by
  unfold addBranch
  by_cases h : i ∈ l
  · rw [if_pos h]
    constructor
    · exact Or.inr
    · rintro (rfl | hb)
      · exact h
      · exact hb
  · rw [if_neg h]
    simp [or_comm]

theorem getElem?_modifyIdx_self (l : List α) (i : ℕ) (f : α → α) :
    (modifyIdx l i f)[i]? = (l[i]?).map f := by
  induction l generalizing i with
  | nil => cases i <;> rfl
  | cons a rest ih =>
    cases i with
    | zero => simp [modifyIdx]
    | succ j => simpa [modifyIdx] using ih j

theorem getElem?_modifyIdx_ne (l : List α) (i j : ℕ) (f : α → α) (h : i ≠ j) :
    (modifyIdx l i f)[j]? = l[j]? := by
  induction l generalizing i j with
  | nil => rfl
  | cons a rest ih =>
    cases i with
    | zero =>
      cases j with
      | zero => exact absurd rfl h
      | succ k => rfl
    | succ i2 =>
      cases j with
      | zero => simp [modifyIdx]
      | succ k => simpa [modifyIdx] using ih i2 k (by omega)

theorem getElem?_foldl_modify_not_mem (L : List ℕ) (f : α → α) (b : ℕ) :
    ∀ stats : List α, b ∉ L →
      (L.foldl (fun st j => modifyIdx st j f) stats)[b]? = stats[b]? := by
  induction L with
  | nil => intro stats _; rfl
  | cons i rest ih =>
    intro stats hb
    have h1 : i ≠ b := by
      intro he
      exact hb (he ▸ List.mem_cons_self i rest)
    have h2 : b ∉ rest := fun hm => hb (List.mem_cons_of_mem i hm)
    simp only [List.foldl_cons]
    rw [ih _ h2, getElem?_modifyIdx_ne stats i b f h1]

theorem getElem?_foldl_modify_mem (L : List ℕ) (f : α → α) (b : ℕ) :
    ∀ stats : List α, L.Nodup → b ∈ L →
      (L.foldl (fun st j => modifyIdx st j f) stats)[b]? = (stats[b]?).map f := by
  induction L with
  | nil => intro stats _ hb; cases hb
  | cons i rest ih =>
    intro stats hnd hb
    simp only [List.foldl_cons]
    rcases List.mem_cons.mp hb with rfl | hbr
    · have hbr : b ∉ rest := (List.nodup_cons.mp hnd).1
      rw [getElem?_foldl_modify_not_mem rest f b _ hbr]
      exact getElem?_modifyIdx_self stats b f
    · have hi : i ≠ b := by
        rintro rfl
        exact (List.nodup_cons.mp hnd).1 hbr
      rw [ih _ (List.nodup_cons.mp hnd).2 hbr, getElem?_modifyIdx_ne stats i b f hi]

theorem lookupOid_insertSighting_self (m : List (String × ObjectInfo)) (i : ℕ) (oid : String)
    (s : ℕ) :
    lookupOid (insertSighting m i oid s) oid =
      match lookupOid m oid with
      | none => some ⟨s, [i]⟩
      | some info => some ⟨info.size, addBranch i info.branches⟩ := by
  induction m with
  | nil => simp [insertSighting, lookupOid]
  | cons e rest ih =>
    by_cases h : e.1 = oid
    · simp [insertSighting, lookupOid, h]
    · simp only [insertSighting, if_neg h]
      simp only [lookupOid, if_neg h]
      exact ih

theorem lookupOid_insertSighting_ne (m : List (String × ObjectInfo)) (i : ℕ) (oid2 : String)
    (s : ℕ) (oid : String) (h : oid2 ≠ oid) :
    lookupOid (insertSighting m i oid2 s) oid = lookupOid m oid := by
  induction m with
  | nil => simp [insertSighting, lookupOid, h]
  | cons e rest ih =>
    by_cases he : e.1 = oid2
    · have hne : e.1 ≠ oid := fun hh => h (he.symm.trans hh)
      simp only [insertSighting, if_pos he, lookupOid, if_neg hne]
    · simp only [insertSighting, if_neg he]
      by_cases heo : e.1 = oid
      · simp only [lookupOid, if_pos heo]
      · simp only [lookupOid, if_neg heo]
        exact ih

theorem merge_branch_objects_eq_foldSightings (pms : List (ℕ × List (String × ℕ))) :
    merge_branch_objects pms = foldSightings (triplesOf pms) [] := by
  unfold merge_branch_objects foldSightings triplesOf
  rw [List.foldl_flatten, List.foldl_map]
  congr 1
  funext om p
  rw [List.foldl_map]

theorem sightingsOf_eq_sightingsT (pms : List (ℕ × List (String × ℕ))) (oid : String) :
    sightingsOf pms oid = sightingsT (triplesOf pms) oid := by
  unfold sightingsOf sightingsT triplesOf
  induction pms with
  | nil => rfl
  | cons p rest ih =>
    simp only [List.map_cons, List.flatten_cons, List.filter_append, List.map_append]
    rw [← ih]
    congr 1
    rw [List.filter_map, List.map_map]
    rfl

theorem lookupOid_foldSightings (oid : String) :
    ∀ (ts : List (ℕ × String × ℕ)) (m : List (String × ObjectInfo)),
      lookupOid (foldSightings ts m) oid =
        match lookupOid m oid with
        | none =>
          match sightingsT ts oid with
          | [] => none
          | (i, s) :: rest =>
            some ⟨s, rest.foldl (fun acc p => addBranch p.1 acc) [i]⟩
        | some info =>
          some ⟨info.size,
            (sightingsT ts oid).foldl (fun acc p => addBranch p.1 acc) info.branches⟩ := by
  intro ts
  induction ts with
  | nil =>
    intro m
    cases h : lookupOid m oid <;> simp [foldSightings, sightingsT, h]
  | cons t rest ih =>
    intro m
    have hfold : foldSightings (t :: rest) m =
        foldSightings rest (insertSighting m t.1 t.2.1 t.2.2) := rfl
    rw [hfold, ih]
    by_cases ht : t.2.1 = oid
    · subst ht
      have hsi : sightingsT (t :: rest) t.2.1 = (t.1, t.2.2) :: sightingsT rest t.2.1 := by
        simp [sightingsT, List.filter_cons]
      rw [lookupOid_insertSighting_self, hsi]
      cases h : lookupOid m t.2.1 <;> simp [h, List.foldl_cons]
    · have hsi : sightingsT (t :: rest) oid = sightingsT rest oid := by
        simp [sightingsT, List.filter_cons, ht]
      rw [lookupOid_insertSighting_ne m t.1 t.2.1 t.2.2 oid ht, hsi]

theorem branchesBounded_insertSighting (n i : ℕ) (oid : String) (s : ℕ) :
    ∀ m : List (String × ObjectInfo), BranchesBounded n m → i < n →
      BranchesBounded n (insertSighting m i oid s) := by
  intro m
  induction m with
  | nil =>
    intro _ hi e he b hb
    simp only [insertSighting, List.mem_singleton] at he
    subst he
    simp only [List.mem_singleton] at hb
    exact hb ▸ hi
  | cons e2 rest ih =>
    intro hm hi
    have hrest : BranchesBounded n rest := fun e he => hm e (List.mem_cons_of_mem e2 he)
    by_cases he2 : e2.1 = oid
    · intro e he b hb
      rw [insertSighting, if_pos he2] at he
      rcases List.mem_cons.mp he with rfl | hmem
      · rcases mem_addBranch.mp hb with rfl | hold
        · exact hi
        · exact hm e2 (List.mem_cons_self e2 rest) b hold
      · exact hrest e hmem b hb
    · intro e he b hb
      rw [insertSighting, if_neg he2] at he
      rcases List.mem_cons.mp he with rfl | hmem
      · exact hm _ (List.mem_cons_self _ rest) b hb
      · exact ih hrest hi e hmem b hb

theorem branchesBounded_foldSightings (n : ℕ) :
    ∀ (ts : List (ℕ × String × ℕ)) (m : List (String × ObjectInfo)),
      BranchesBounded n m → (∀ t ∈ ts, t.1 < n) → BranchesBounded n (foldSightings ts m) := by
  intro ts
  induction ts with
  | nil => intro m hm _; exact hm
  | cons t rest ih =>
    intro m hm hts
    exact ih _ (branchesBounded_insertSighting n t.1 t.2.1 t.2.2 m hm
        (hts t (List.mem_cons_self t rest)))
      (fun t2 ht2 => hts t2 (List.mem_cons_of_mem t ht2))

theorem triplesOf_idx_lt (pms : List (ℕ × List (String × ℕ))) (n : ℕ)
    (hidx : ∀ p ∈ pms, p.1 < n) : ∀ t ∈ triplesOf pms, t.1 < n := by
  intro t ht
  simp only [triplesOf, List.mem_flatten, List.mem_map] at ht
  obtain ⟨l, ⟨p, hp, rfl⟩, htl⟩ := ht
  obtain ⟨e, _, rfl⟩ := List.mem_map.mp htl
  exact hidx p hp

theorem mem_weightList_iff (branch_names : List String)
    (object_map : List (String × ObjectInfo)) (w : BranchWeight) :
    w ∈ weightList branch_names object_map ↔
      ∃ i s, (branchStats branch_names.length object_map)[i]? = some s ∧
        (0 < s.unique_size ∨ 0 < s.shared_size) ∧ w = mkWeight (branch_names.getD i "") s := by
  unfold weightList
  simp only [List.mem_map, List.mem_filter, Bool.or_eq_true, decide_eq_true_eq]
  constructor
  · rintro ⟨⟨i, s⟩, ⟨henum, hpos⟩, rfl⟩
    exact ⟨i, s, List.mk_mem_enum_iff_getElem?.mp henum, hpos, rfl⟩
  · rintro ⟨i, s, hget, hpos, rfl⟩
    exact ⟨(i, s), ⟨List.mk_mem_enum_iff_getElem?.mpr hget, hpos⟩, rfl⟩

theorem mem_partialMapsOf_iff (branches : List (String × String))
    (git : String → Option (List (String × ℕ))) (i : ℕ) (m : List (String × ℕ)) :
    (i, m) ∈ partialMapsOf branches git ↔
      ∃ br, branches[i]? = some br ∧ git br.2 = some m ∧ m ≠ [] := by
  unfold partialMapsOf
  rw [List.mem_filterMap]
  constructor
  · rintro ⟨⟨j, br⟩, henum, hf⟩
    cases hg : git br.2 with
    | none => rw [hg] at hf; cases hf
    | some m2 =>
      rw [hg] at hf
      have hf2 : (if m2.isEmpty then none else some (j, m2)) = some (i, m) := hf
      by_cases he : m2.isEmpty
      · rw [if_pos he] at hf2; cases hf2
      · rw [if_neg he] at hf2
        have hji : j = i ∧ m2 = m := by
          have hp := Option.some.inj hf2
          exact ⟨congrArg Prod.fst hp, congrArg Prod.snd hp⟩
        obtain ⟨rfl, rfl⟩ := hji
        refine ⟨br, List.mk_mem_enum_iff_getElem?.mp henum, hg, ?_⟩
        intro hnil
        exact he (List.isEmpty_iff.mpr hnil)
  · rintro ⟨br, hget, hgit, hne⟩
    refine ⟨(i, br), List.mk_mem_enum_iff_getElem?.mpr hget, ?_⟩
    show (match git br.2 with
      | none => none
      | some m2 => if m2.isEmpty then none else some (i, m2)) = some (i, m)
    rw [hgit]
    show (if m.isEmpty then none else some (i, m)) = some (i, m)
    rw [if_neg (fun he => hne (List.isEmpty_iff.mp he))]

theorem weightLE_trans : ∀ a b c : BranchWeight, weightLE a b → weightLE b c → weightLE a c := by
  intro a b c hab hbc
  simp only [weightLE, decide_eq_true_eq] at hab hbc ⊢
  exact le_trans hbc hab

theorem weightLE_total : ∀ a b : BranchWeight, weightLE a b || weightLE b a := by
  intro a b
  simp only [weightLE, Bool.or_eq_true, decide_eq_true_eq]
  exact Nat.le_total b.total_size a.total_size

theorem filter_total_size_mergeSort (l : List BranchWeight) (v : ℕ) :
    (l.mergeSort weightLE).filter (fun w => decide (w.total_size = v)) =
      l.filter (fun w => decide (w.total_size = v)) := by
  have hpw : (l.filter (fun w => decide (w.total_size = v))).Pairwise
      (fun a b => weightLE a b) := by
    apply List.pairwise_of_forall_mem_list
    intro a ha b hb
    have hav : a.total_size = v := by
      simpa using (List.mem_filter.mp ha).2
    have hbv : b.total_size = v := by
      simpa using (List.mem_filter.mp hb).2
    simp [weightLE, hav, hbv]
  have hsubl : List.Sublist (l.filter (fun w => decide (w.total_size = v)))
      (l.mergeSort weightLE) :=
    List.sublist_mergeSort weightLE_trans weightLE_total hpw (List.filter_sublist l)
  have hself : (l.filter (fun w => decide (w.total_size = v))).filter
      (fun w => decide (w.total_size = v)) = l.filter (fun w => decide (w.total_size = v)) :=
    List.filter_eq_self.mpr (fun a ha => (List.mem_filter.mp ha).2)
  have hsub2 := hsubl.filter (fun w => decide (w.total_size = v))
  rw [hself] at hsub2
  have hperm : List.Perm ((l.mergeSort weightLE).filter (fun w => decide (w.total_size = v)))
      (l.filter (fun w => decide (w.total_size = v))) :=
    (List.mergeSort_perm l weightLE).filter _
  exact (hsub2.eq_of_length hperm.length_eq.symm).symm

/-- Claim C1: in the reduction phase of `calculate_weights`, an object whose
contributor set contains exactly one branch adds its full size (a `u64`
addition) to that branch's `unique_size` and increments its `unique_count`,
while an object whose contributor set contains more than one branch adds
its full, undivided size to `shared_size` and increments `shared_count` of
every one of those branches. -/
theorem processObject_contributor_effect (stats : List BranchStat) (info : ObjectInfo)
    (hnd : info.branches.Nodup) (b : ℕ) (hb : b ∈ info.branches) :
    (info.branches.length = 1 →
      (processObject stats info)[b]? = (stats[b]?).map (fun s =>
        { s with unique_size := (s.unique_size + info.size) % U64MOD,
                 unique_count := (s.unique_count + 1) % U64MOD })) ∧
    (1 < info.branches.length →
      (processObject stats info)[b]? = (stats[b]?).map (fun s =>
        { s with shared_size := (s.shared_size + info.size) % U64MOD,
                 shared_count := (s.shared_count + 1) % U64MOD })) := by
  constructor
  · intro h1
    show (info.branches.foldl (fun st b2 => modifyIdx st b2
      (bumpStat (decide (1 < info.branches.length)) info.size)) stats)[b]? = _
    rw [getElem?_foldl_modify_mem info.branches _ b stats hnd hb]
    cases hsb : stats[b]? with
    | none => rfl
    | some s => simp [bumpStat, h1]
  · intro h2
    show (info.branches.foldl (fun st b2 => modifyIdx st b2
      (bumpStat (decide (1 < info.branches.length)) info.size)) stats)[b]? = _
    rw [getElem?_foldl_modify_mem info.branches _ b stats hnd hb]
    cases hsb : stats[b]? with
    | none => rfl
    | some s => simp [bumpStat, h2]

theorem processObject_contributor_effect_witness :
    (([0] : List ℕ).Nodup ∧ (0 : ℕ) ∈ ([0] : List ℕ) ∧ ([0] : List ℕ).length = 1 ∧
      (processObject [⟨1, 2, 3, 4⟩] ⟨5, [0]⟩)[0]? =
        ([(⟨1, 2, 3, 4⟩ : BranchStat)][0]?).map (fun s =>
          { s with unique_size := (s.unique_size + 5) % U64MOD,
                   unique_count := (s.unique_count + 1) % U64MOD })) ∧
    (([0, 1] : List ℕ).Nodup ∧ (1 : ℕ) ∈ ([0, 1] : List ℕ) ∧ 1 < ([0, 1] : List ℕ).length ∧
      (processObject [⟨1, 2, 3, 4⟩, ⟨0, 0, 0, 0⟩] ⟨7, [0, 1]⟩)[1]? =
        ([(⟨1, 2, 3, 4⟩ : BranchStat), ⟨0, 0, 0, 0⟩][1]?).map (fun s =>
          { s with shared_size := (s.shared_size + 7) % U64MOD,
                   shared_count := (s.shared_count + 1) % U64MOD })) := by
  refine ⟨⟨by decide, by decide, by decide, ?_⟩, ⟨by decide, by decide, by decide, ?_⟩⟩
  · exact (processObject_contributor_effect [⟨1, 2, 3, 4⟩] ⟨5, [0]⟩ (by decide) 0
      (by decide)).1 (by decide)
  · exact (processObject_contributor_effect [⟨1, 2, 3, 4⟩, ⟨0, 0, 0, 0⟩] ⟨7, [0, 1]⟩
      (by decide) 1 (by decide)).2 (by decide)

/-- Claim C3: every `BranchWeight` produced by `calculate_weights` satisfies
`total_size = unique_size + shared_size` and
`object_count = unique_count + shared_count`, the sums being the `u64` and
`usize` additions the code performs (hence taken `% U64MOD`). -/
theorem calculate_weights_total_invariant (branch_names : List String)
    (object_map : List (String × ObjectInfo)) (w : BranchWeight)
    (hw : w ∈ calculate_weights branch_names object_map) :
    w.total_size = (w.unique_size + w.shared_size) % U64MOD ∧
    w.object_count = (w.unique_count + w.shared_count) % U64MOD := by
  have hw2 : w ∈ weightList branch_names object_map := List.mem_mergeSort.mp hw
  obtain ⟨i, s, _, _, rfl⟩ := (mem_weightList_iff branch_names object_map w).mp hw2
  exact ⟨rfl, rfl⟩

theorem calculate_weights_total_invariant_witness :
    ((⟨"A", 7, 0, 7, 1, 1, 0⟩ : BranchWeight) ∈ calculate_weights ["A"] [("x", ⟨7, [0]⟩)]) ∧
    (7 : ℕ) = (7 + 0) % U64MOD ∧ (1 : ℕ) = (1 + 0) % U64MOD := by
  have hmem : (⟨"A", 7, 0, 7, 1, 1, 0⟩ : BranchWeight) ∈
      calculate_weights ["A"] [("x", ⟨7, [0]⟩)] :=
    List.mem_mergeSort.mpr (by decide)
  exact ⟨hmem, calculate_weights_total_invariant ["A"] [("x", ⟨7, [0]⟩)] _ hmem⟩

/-- Claim C5: during the merge, the first sighting of an object id fixes the
stored record to that sighting's size with contributor set containing only
that sighting's branch, and every later sighting only adds its branch index
to the contributor set and never overwrites the stored size: for every
sequence of partial maps, the merged entry for an id is exactly (size of the
first sighting, fold of contributor additions over all sightings). -/
theorem merge_branch_objects_sighting_characterization
    (pms : List (ℕ × List (String × ℕ))) (oid : String) :
    lookupOid (merge_branch_objects pms) oid =
      match sightingsOf pms oid with
      | [] => none
      | (i, s) :: rest => some ⟨s, rest.foldl (fun acc p => addBranch p.1 acc) [i]⟩ := by
  rw [merge_branch_objects_eq_foldSightings, lookupOid_foldSightings,
    sightingsOf_eq_sightingsT]
  rfl

/-- Claim C6: a branch whose pipeline invocation fails (the oracle returns
`none`, covering spawn errors and error results observed through `.ok()`)
or produces an empty map contributes nothing, and the merge receives
exactly the (branch-index, map) pairs of branches whose map is non-empty. -/
theorem analyze_branches_failed_branch_dropped (branches : List (String × String))
    (git : String → Option (List (String × ℕ))) (i : ℕ) (m : List (String × ℕ)) :
    (i, m) ∈ partialMapsOf branches git ↔
      ∃ br, branches[i]? = some br ∧ git br.2 = some m ∧ m ≠ [] :=
  mem_partialMapsOf_iff branches git i m

/-- Claim C10: every (branch-index, map) pair produced by the scheduler
carries an index below the branch count, every contributor index stored in
the merged object map is below the branch count, and therefore the indexing
`branch_stats[branch_idx]` of `calculate_weights` (whose stats vector has
`branch_names.length` entries) is always in bounds and never panics. -/
theorem branch_index_in_bounds (branches : List (String × String))
    (git : String → Option (List (String × ℕ))) :
    (∀ p ∈ partialMapsOf branches git, p.1 < branches.length) ∧
    (∀ e ∈ merge_branch_objects (partialMapsOf branches git), ∀ b ∈ e.2.branches,
      b < (branches.map Prod.fst).length) := by
  have hidx : ∀ p ∈ partialMapsOf branches git, p.1 < branches.length := by
    intro p hp
    obtain ⟨br, hget, _, _⟩ := (mem_partialMapsOf_iff branches git p.1 p.2).mp hp
    exact (List.getElem?_eq_some_iff.mp hget).1
  refine ⟨hidx, ?_⟩
  intro e he b hb
  rw [List.length_map]
  have hbd : BranchesBounded branches.length
      (merge_branch_objects (partialMapsOf branches git)) := by
    rw [merge_branch_objects_eq_foldSightings]
    exact branchesBounded_foldSightings branches.length _ []
      (fun e2 he2 => absurd he2 (List.not_mem_nil e2))
      (triplesOf_idx_lt _ _ hidx)
  exact hbd e he b hb

theorem branch_index_in_bounds_witness :
    ((0, [("o", 5)]) ∈ partialMapsOf [("a", "t")] (fun _ => some [("o", 5)])) ∧
    (0 : ℕ) < [("a", "t")].length ∧
    (("o", (⟨5, [0]⟩ : ObjectInfo)) ∈
      merge_branch_objects (partialMapsOf [("a", "t")] (fun _ => some [("o", 5)]))) ∧
    (0 : ℕ) < ([("a", "t")].map Prod.fst).length := by
  have h := branch_index_in_bounds [("a", "t")] (fun _ => some [("o", 5)])
  refine ⟨by decide, ?_, by decide, ?_⟩
  · exact h.1 (0, [("o", 5)]) (by decide)
  · exact h.2 ("o", ⟨5, [0]⟩) (by decide) 0 (by decide)

/-- Claim C2 is refuted at a concrete input: with one branch contributing a
single object of size 0, the reduction records `unique_count = 1` for that
branch (so its `object_count` would be `1 ≠ 0`), yet the output of
`calculate_weights` is empty — the filter at objects.rs line 168 tests
`unique_size > 0 || shared_size > 0`, not `object_count == 0`. -/
theorem calculate_weights_zero_size_counterexample :
    (branchStats 1 [("o", ⟨0, [0]⟩)])[0]? = some ⟨0, 0, 1, 0⟩ ∧
    calculate_weights ["a"] [("o", ⟨0, [0]⟩)] = [] := by
  constructor
  · decide
  · show (weightList ["a"] [("o", ⟨0, [0]⟩)]).mergeSort weightLE = []
    have h : weightList ["a"] [("o", ⟨0, [0]⟩)] = [] := by decide
    rw [h]
    exact List.mergeSort_nil

/-- Claim C2 (amended): a `BranchWeight` is built from every branch stat
and a branch is omitted from the final output exactly when its
`unique_size` and `shared_size` are both zero (equivalently, its
contributed bytes total zero); in particular a branch contributing zero
objects never appears, but a branch whose every contributed object has
size 0 is also dropped despite a positive `object_count`. -/
theorem calculate_weights_mem_iff_positive_size (branch_names : List String)
    (object_map : List (String × ObjectInfo)) (i : ℕ) (s : BranchStat)
    (hs : (branchStats branch_names.length object_map)[i]? = some s) :
    mkWeight (branch_names.getD i "") s ∈ calculate_weights branch_names object_map ↔
      (0 < s.unique_size ∨ 0 < s.shared_size) := by
  constructor
  · intro hmem
    have hw2 : mkWeight (branch_names.getD i "") s ∈ weightList branch_names object_map :=
      List.mem_mergeSort.mp hmem
    obtain ⟨j, s2, hget2, hpos2, heq⟩ := (mem_weightList_iff _ _ _).mp hw2
    have hu : s.unique_size = s2.unique_size := congrArg BranchWeight.unique_size heq
    have hsh : s.shared_size = s2.shared_size := congrArg BranchWeight.shared_size heq
    rw [hu, hsh]
    exact hpos2
  · intro hpos
    exact List.mem_mergeSort.mpr ((mem_weightList_iff _ _ _).mpr ⟨i, s, hs, hpos, rfl⟩)

theorem calculate_weights_mem_iff_positive_size_witness :
    ((branchStats 1 [("o", ⟨3, [0]⟩)])[0]? = some ⟨3, 0, 1, 0⟩) ∧
    mkWeight "a" ⟨3, 0, 1, 0⟩ ∈ calculate_weights ["a"] [("o", ⟨3, [0]⟩)] := by
  refine ⟨by decide, ?_⟩
  exact (calculate_weights_mem_iff_positive_size ["a"] [("o", ⟨3, [0]⟩)] 0 ⟨3, 0, 1, 0⟩
    (by decide)).mpr (Or.inl (by decide))

/-- Claim C4: the output of `calculate_weights` is sorted descending by
`total_size`, and branches of equal `total_size` appear in the order of the
pre-sort list (which enumerates branches in original branch-list order):
the filter of the output at any fixed `total_size` value equals the filter
of the pre-sort list, i.e. the sort is stable and deterministic under
ties. -/
theorem calculate_weights_sorted_stable (branch_names : List String)
    (object_map : List (String × ObjectInfo)) :
    (calculate_weights branch_names object_map).Pairwise
      (fun a b => b.total_size ≤ a.total_size) ∧
    ∀ v : ℕ,
      (calculate_weights branch_names object_map).filter
          (fun w => decide (w.total_size = v)) =
        (weightList branch_names object_map).filter (fun w => decide (w.total_size = v)) := by
  constructor
  · have hp := List.sorted_mergeSort weightLE_trans weightLE_total
      (weightList branch_names object_map)
    exact hp.imp (fun hab => by simpa [weightLE] using hab)
  · intro v
    exact filter_total_size_mergeSort (weightList branch_names object_map) v

/-- Claim C7: the object collector keeps exactly the metadata-probe lines
with at least three whitespace-separated tokens whose second token is
`blob` and whose third token parses as a `u64`; any other line is dropped
silently and leaves the accumulated map unchanged, and the empty map (from
an empty line stream) is a valid outcome. -/
theorem collect_blobs_spec :
    (∀ (line oid : String) (n : ℕ), parse_blob_line line = some (oid, n) ↔
      ∃ t2 rest, splitWhitespace line = oid :: "blob" :: t2 :: rest ∧
        parseU64 t2 = some n) ∧
    (∀ (ls1 : List String) (line : String) (ls2 : List String),
      parse_blob_line line = none →
        collect_blobs (ls1 ++ line :: ls2) = collect_blobs (ls1 ++ ls2)) ∧
    collect_blobs [] = [] := by
  refine ⟨?_, ?_, rfl⟩
  · intro line oid n
    cases hsp : splitWhitespace line with
    | nil =>
      have hpl : parse_blob_line line = none := by
        unfold parse_blob_line
        rw [hsp]
      simp [hpl, hsp]
    | cons p0 t =>
      cases t with
      | nil =>
        have hpl : parse_blob_line line = none := by
          unfold parse_blob_line
          rw [hsp]
        simp [hpl, hsp]
      | cons p1 t2 =>
        cases t2 with
        | nil =>
          have hpl : parse_blob_line line = none := by
            unfold parse_blob_line
            rw [hsp]
          simp [hpl, hsp]
        | cons p2 rest2 =>
          have hpl : parse_blob_line line =
              if p1 = "blob" then (parseU64 p2).map (fun k => (p0, k)) else none := by
            unfold parse_blob_line
            rw [hsp]
          rw [hpl]
          by_cases hb : p1 = "blob"
          · subst hb
            rw [if_pos rfl]
            constructor
            · intro hmap
              obtain ⟨a, hpa, hpair⟩ := Option.map_eq_some'.mp hmap
              have h1 : p0 = oid := congrArg Prod.fst hpair
              have h2 : a = n := congrArg Prod.snd hpair
              subst h1
              subst h2
              exact ⟨p2, rest2, rfl, hpa⟩
            · rintro ⟨t3, rest3, heq, hp⟩
              injection heq with h0 heq2
              injection heq2 with h1 heq3
              injection heq3 with h2 h3
              subst h0
              subst h2
              rw [hp]
              rfl
          · rw [if_neg hb]
            constructor
            · intro h
              cases h
            · rintro ⟨t3, rest3, heq, _⟩
              injection heq with h0 heq2
              injection heq2 with h1 heq3
              exact absurd h1 hb
  · intro ls1 line ls2 hnone
    unfold collect_blobs
    rw [List.foldl_append, List.foldl_append, List.foldl_cons, hnone]

theorem collect_blobs_spec_witness :
    parse_blob_line "junk" = none ∧
    collect_blobs (["a blob 5"] ++ "junk" :: []) = collect_blobs (["a blob 5"] ++ []) :=
  ⟨by decide, collect_blobs_spec.2.1 ["a blob 5"] "junk" [] (by decide)⟩

/-- Claim C8: the formatted-size string uses one decimal place when the
megabyte value reaches the program's `0.1` threshold (the `f64` constant
`FLOAT01_NUM / 2 ^ 55`), two decimal places when it reaches the `0.01`
threshold (`FLOAT001_NUM / 2 ^ 59`) but not `0.1`, and the literal
`"0 MB"` below `0.01`; and the concrete boundary values map as the spec
lists: 10 KiB to `"0 MB"`, 15 KiB to `"0.01 MB"`, 100 KiB to `"0.10 MB"`,
512 KiB to `"0.5 MB"`, 1 MiB to `"1.0 MB"`. -/
theorem format_size_mb_spec :
    (∀ size : ℕ,
      (FLOAT01_NUM ≤ size * 2 ^ 35 →
        ∃ a b : ℕ, b < 10 ∧
          format_size_mb size = toString a ++ "." ++ toString b ++ " MB") ∧
      (size * 2 ^ 35 < FLOAT01_NUM → FLOAT001_NUM ≤ size * 2 ^ 39 →
        ∃ a b : ℕ, b < 100 ∧
          format_size_mb size = toString a ++ "." ++
            (if b < 10 then "0" ++ toString b else toString b) ++ " MB") ∧
      (size * 2 ^ 39 < FLOAT001_NUM → format_size_mb size = "0 MB")) ∧
    format_size_mb (1024 * 10) = "0 MB" ∧
    format_size_mb (1024 * 15) = "0.01 MB" ∧
    format_size_mb (1024 * 100) = "0.10 MB" ∧
    format_size_mb (1024 * 512) = "0.5 MB" ∧
    format_size_mb (1024 * 1024) = "1.0 MB" := by
  refine ⟨?_, by decide, by decide, by decide, by decide, by decide⟩
  intro size
  refine ⟨?_, ?_, ?_⟩
  · intro h1
    refine ⟨rheDiv (size * 10) (2 ^ 20) / 10, rheDiv (size * 10) (2 ^ 20) % 10,
      Nat.mod_lt _ (by norm_num), ?_⟩
    rw [format_size_mb, if_pos h1]
    rfl
  · intro h1 h2
    refine ⟨rheDiv (size * 100) (2 ^ 20) / 100, rheDiv (size * 100) (2 ^ 20) % 100,
      Nat.mod_lt _ (by norm_num), ?_⟩
    rw [format_size_mb, if_neg (not_le.mpr h1), if_pos h2]
    rfl
  · intro h3
    have e1 : (2 : ℕ) ^ 35 = 34359738368 := by norm_num
    have e2 : (2 : ℕ) ^ 39 = 549755813888 := by norm_num
    have hlt1 : size * 2 ^ 35 < FLOAT01_NUM := by
      rw [e2] at h3
      rw [e1]
      unfold FLOAT001_NUM at h3
      unfold FLOAT01_NUM
      omega
    rw [format_size_mb, if_neg (not_le.mpr hlt1), if_neg (not_le.mpr h3)]

theorem format_size_mb_spec_witness :
    (FLOAT01_NUM ≤ 1024 * 512 * 2 ^ 35 ∧
      ∃ a b : ℕ, b < 10 ∧
        format_size_mb (1024 * 512) = toString a ++ "." ++ toString b ++ " MB") ∧
    (1024 * 15 * 2 ^ 35 < FLOAT01_NUM ∧ FLOAT001_NUM ≤ 1024 * 15 * 2 ^ 39 ∧
      ∃ a b : ℕ, b < 100 ∧
        format_size_mb (1024 * 15) = toString a ++ "." ++
          (if b < 10 then "0" ++ toString b else toString b) ++ " MB") ∧
    (1024 * 10 * 2 ^ 39 < FLOAT001_NUM ∧ format_size_mb (1024 * 10) = "0 MB") :=
  ⟨⟨by decide, (format_size_mb_spec.1 (1024 * 512)).1 (by decide)⟩,
   ⟨by decide, by decide, (format_size_mb_spec.1 (1024 * 15)).2.1 (by decide) (by decide)⟩,
   ⟨by decide, (format_size_mb_spec.1 (1024 * 10)).2.2 (by decide)⟩⟩

/-- Claim C9: every `CommitWeight` retained by `analyze_branch_details` has
size strictly greater than zero (zero-sum commits are dropped), and each
produced `BranchDetail` records as `total_size` exactly the `u64` sum of
the sizes of its retained commit weights. -/
theorem analyze_branch_details_spec (branches : List BranchWeight)
    (git : String → Option (List CommitBlobs)) (top_n : ℕ) (d : BranchDetail)
    (hd : d ∈ analyze_branch_details branches git top_n) :
    (∀ cw ∈ d.commits, 0 < cw.size) ∧
    d.total_size = sum64 (d.commits.map CommitWeight.size) := by
  unfold analyze_branch_details at hd
  rw [List.mem_filterMap] at hd
  obtain ⟨bw, _, hf⟩ := hd
  cases hg : git ("refs/remotes/" ++ bw.branch) with
  | none => rw [hg] at hf; cases hf
  | some commits =>
    rw [hg] at hf
    have hf2 : some (BranchDetail.mk bw.branch
        (sum64 (((commits.map (fun cb =>
            CommitWeight.mk cb.commit (sum64 (cb.blobs.map Prod.snd)))).filter
          (fun cw => decide (0 < cw.size))).map CommitWeight.size))
        ((commits.map (fun cb =>
            CommitWeight.mk cb.commit (sum64 (cb.blobs.map Prod.snd)))).filter
          (fun cw => decide (0 < cw.size)))) = some d := hf
    obtain rfl := Option.some.inj hf2
    constructor
    · intro cw hcw
      have hc := (List.mem_filter.mp hcw).2
      simpa using hc
    · rfl

theorem analyze_branch_details_spec_witness :
    ((⟨"b1", 5, [⟨"c1", 5⟩]⟩ : BranchDetail) ∈
      analyze_branch_details [⟨"b1", 10, 10, 10, 1, 1, 0⟩]
        (fun r => if r = "refs/remotes/b1" then
          some [⟨"c1", [("x", 5), ("y", 0)]⟩, ⟨"c2", [("z", 0)]⟩] else none) 5) ∧
    (∀ cw ∈ (⟨"b1", 5, [⟨"c1", 5⟩]⟩ : BranchDetail).commits, 0 < cw.size) ∧
    (⟨"b1", 5, [⟨"c1", 5⟩]⟩ : BranchDetail).total_size =
      sum64 ((⟨"b1", 5, [⟨"c1", 5⟩]⟩ : BranchDetail).commits.map CommitWeight.size) := by
  have hd : (⟨"b1", 5, [⟨"c1", 5⟩]⟩ : BranchDetail) ∈
      analyze_branch_details [⟨"b1", 10, 10, 10, 1, 1, 0⟩]
        (fun r => if r = "refs/remotes/b1" then
          some [⟨"c1", [("x", 5), ("y", 0)]⟩, ⟨"c2", [("z", 0)]⟩] else none) 5 := by decide
  exact ⟨hd, analyze_branch_details_spec _ _ 5 _ hd⟩

end GitBranchWeight
